import Mathlib

set_option maxHeartbeats 1000000

/-!
Shallow embedding of the svalbard vault crate (src/vault/src) and proofs of
the specification claims about it.

Conventions of the embedding:
* Rust byte and machine-integer values are modelled as `Nat`; strings are
  lists of byte values; `Vec` and slices are `List`.
* A Rust panic (index out of bounds, division or remainder by zero,
  `unwrap` of `None`, `todo!()`) is modelled by returning `none`.
* The external argon2 library entry point `argon2::hash_raw` is a parameter
  (`HashFn`) of every function that calls it; its documented contract (the
  output has exactly `hash_length` bytes) is taken as a hypothesis where a
  claim needs it.
* The ambient process state (the thread-local RNG reached through
  `rand::thread_rng`) is modelled by an explicit `Env` value handed to the
  functions of the `generate` module; only `generate.pepper` reads it.
-/

namespace Svalbard

/-- Model of `argon2::Variant` (the source sets `Argon2d`; the crate default
is `Argon2i`). -/
inductive Variant where
  | Argon2d
  | Argon2i
deriving DecidableEq

/-- Model of the fields of `argon2::Config` that the repository writes or
that reach the hash call. -/
structure ArgonConfig where
  hash_length : Nat
  secret : List Nat
  variant : Variant
deriving DecidableEq

/-- Model of `argon2::Config::default()`, restricted to the modelled fields. -/
def ArgonConfig.default : ArgonConfig :=
  { hash_length := 32, secret := [], variant := .Argon2i }

/-- Type of the external `argon2::hash_raw` function:
data, salt, config to digest bytes. -/
abbrev HashFn := List Nat → List Nat → ArgonConfig → List Nat

/-- Ambient process state: the thread-local RNG, as a stream of bytes. The
source reaches it only through `rand::thread_rng()` inside `generate::pepper`. -/
structure Env where
  rng : Nat → Nat

/-- Model of `u64::to_be_bytes`: the 8 bytes of the value, big-endian. -/
def u64BeBytes (n : Nat) : List Nat :=
  [n / 2 ^ 56 % 256, n / 2 ^ 48 % 256, n / 2 ^ 40 % 256, n / 2 ^ 32 % 256,
   n / 2 ^ 24 % 256, n / 2 ^ 16 % 256, n / 2 ^ 8 % 256, n % 256]

/-- Model of the bitflags struct `Characters` (src/vault/src/seed.rs): a bit
mask over the five character classes. -/
structure Characters where
  bits : Nat
deriving DecidableEq

/-- Model of `Characters::SETS`: the five character classes as byte values
(upper case without I and O, lower case without l, digits without 0,
special, rare). -/
def Characters.SETS : List (List Nat) :=
  [ [65, 66, 67, 68, 69, 70, 71, 72, 74, 75, 76, 77, 78, 80, 81, 82, 83, 84,
     85, 86, 87, 88, 89, 90],
    [97, 98, 99, 100, 101, 102, 103, 104, 105, 106, 107, 109, 110, 111, 112,
     113, 114, 115, 116, 117, 118, 119, 120, 121, 122],
    [49, 50, 51, 52, 53, 54, 55, 56, 57],
    [33, 35, 38, 40, 41, 42, 43, 44, 45, 46, 60, 61, 62, 63, 64, 91, 93, 95],
    [34, 36, 37, 47, 58, 59, 92, 94, 123, 124, 125, 126, 32] ]

/-- Model of `Characters::get`: the classes whose flag bit is set, in the
fixed `SETS` order. -/
def Characters.get (c : Characters) : List (List Nat) :=
  (Characters.SETS.enum.filter fun p => c.bits &&& (1 <<< p.1) != 0).map Prod.snd

/-- Model of `Seed` (src/vault/src/seed.rs). -/
structure Seed where
  identifier : List Nat
  length : Nat
  salt : Nat
  characters : Characters
  username : Option (List Nat)

namespace generate

/-- Model of `generate::hash`: calls `argon2::hash_raw` and unwraps; the
library call is the `h` parameter. -/
def hash (h : HashFn) (data salt : List Nat) (config : ArgonConfig) : List Nat :=
  h data salt config

/-- Model of `generate::auth_token`: hashes the key with the vault pepper as
salt, under the default argon2 configuration. -/
def auth_token (h : HashFn) (key vault_pepper : List Nat) : List Nat :=
  hash h key vault_pepper ArgonConfig.default

/-- Model of `generate::pepper`: 20 bytes drawn from the thread RNG. -/
def pepper (env : Env) : List Nat :=
  (List.range 20).map env.rng

/-- Model of the digest computation inside `generate::password`
(src/vault/src/generate.rs lines 108 to 118): argon2d over the key followed
by the seed identifier, with the pepper as secret, the salt encoded
big-endian, and output length `4.max(target_len * 2)`. -/
def deriveDigest (h : HashFn) (key pepper : List Nat) (seed : Seed) : List Nat :=
  let target_len := seed.length
  let config : ArgonConfig :=
    { ArgonConfig.default with
        hash_length := max 4 (target_len * 2)
        secret := pepper
        variant := .Argon2d }
  let data := key ++ seed.identifier
  hash h data (u64BeBytes seed.salt) config

/-- Model of `sets.iter().map(|set| set.len()).sum()` in `PasswordTable::new`. -/
def charCount (sets : List (List Nat)) : Nat :=
  (sets.map List.length).sum

/-- Model of `digest.chunks_exact(2)`: consecutive non-overlapping pairs, a
trailing odd byte discarded. -/
def chunks2 : List Nat → List (Nat × Nat)
  | a :: b :: rest => (a, b) :: chunks2 rest
  | _ => []

/-- Model of the set-index walk in `PasswordTable::new` (lines 34 to 47):
subtract each class size in order until the index falls inside a class. -/
def setIdxWalk : List (List Nat) → Nat → Nat
  | [], _ => 0
  | s :: rest, i => if s.length ≤ i then setIdxWalk rest (i - s.length) + 1 else 0

/-- Model of `PasswordTable` (src/vault/src/generate.rs lines 18 to 22). -/
structure PasswordTable where
  target_len : Nat
  sets : List (List Nat)
  rows : List (List (Nat × Nat))
deriving DecidableEq

/-- The chunk-placement loop of `PasswordTable::new`: chunk `(a, b)` with
index `i` is appended as cell `(i, b)` to the row chosen by the walk at
`a % cc`. (In the reachable states the walk index is always in range, so
the out-of-range no-op of `List.set` is never exercised.) -/
def placeChunks (sets : List (List Nat)) (cc : Nat) :
    List (Nat × Nat) → Nat → List (List (Nat × Nat)) → List (List (Nat × Nat))
  | [], _, rows => rows
  | (a, b) :: rest, i, rows =>
    placeChunks sets cc rest (i + 1)
      (rows.set (setIdxWalk sets (a % cc))
        ((rows.getD (setIdxWalk sets (a % cc)) []) ++ [(i, b)]))

/-- Model of `PasswordTable::new`. The remainder `set_seed % char_count`
panics (`none`) when `char_count = 0` and at least one chunk is processed. -/
def PasswordTable.new (target_len : Nat) (sets : List (List Nat))
    (digest : List Nat) : Option PasswordTable :=
  let char_count := charCount sets
  if chunks2 digest ≠ [] ∧ char_count = 0 then none
  else some
    { target_len := target_len
      sets := sets
      rows := placeChunks sets char_count (chunks2 digest) 0
        (List.replicate sets.length []) }

/-- Model of `rows.iter_mut().max_by(|a, b| a.len().cmp(&b.len()))`: the
index of the last row of maximal length (Rust `max_by` keeps the last
maximal element). -/
def lastMaxIdx : List (List (Nat × Nat)) → Nat
  | [] => 0
  | [_] => 0
  | r :: r2 :: rs =>
    if ((r2 :: rs).getD (lastMaxIdx (r2 :: rs)) []).length < r.length then 0
    else lastMaxIdx (r2 :: rs) + 1

/-- Model of the `compensations` list in `PasswordTable::balance`: for every
row below `min_freq`, its index repeated once per missing cell, in row
order. -/
def compensations (min_freq : Nat) (rows : List (List (Nat × Nat))) : List Nat :=
  ((rows.enum.filterMap fun p =>
      if p.2.length < min_freq then some (p.1, min_freq - p.2.length) else none).flatMap
    fun p => List.replicate p.2 p.1)

/-- One iteration of the compensation loop of `PasswordTable::balance`: pop
the last cell of the currently largest row and push it onto row `i`. The
`unwrap` of a failed pop, and the (panicking) index into `rows`, are
modelled by `none`. -/
def balanceStep (i : Nat) (rows : List (List (Nat × Nat))) :
    Option (List (List (Nat × Nat))) :=
  match (rows.getD (lastMaxIdx rows) []).getLast? with
  | none => none
  | some cell =>
    if i < rows.length then
      some ((rows.set (lastMaxIdx rows) ((rows.getD (lastMaxIdx rows) []).dropLast)).set i
        (((rows.set (lastMaxIdx rows) ((rows.getD (lastMaxIdx rows) []).dropLast)).getD i [])
          ++ [cell]))
    else none

/-- The compensation loop of `PasswordTable::balance`: one `balanceStep` per
queued row index. -/
def balanceLoop : List Nat → List (List (Nat × Nat)) → Option (List (List (Nat × Nat)))
  | [], rows => some rows
  | i :: rest, rows =>
    match balanceStep i rows with
    | none => none
    | some rows2 => balanceLoop rest rows2

/-- Model of `PasswordTable::balance`. The division `target_len / sets.len()`
panics (`none`) when no set is selected. -/
def PasswordTable.balance (t : PasswordTable) : Option PasswordTable :=
  if t.sets.length = 0 then none
  else
    let min_freq := min 2 (t.target_len / t.sets.length)
    (balanceLoop (compensations min_freq t.rows) t.rows).map
      fun rows' => { t with rows := rows' }

/-- Insertion into a list of (position, class, selector) cells, keeping
positions sorted ascending. -/
def insertByPos (x : Nat × Nat × Nat) : List (Nat × Nat × Nat) → List (Nat × Nat × Nat)
  | [] => [x]
  | y :: ys => if x.1 ≤ y.1 then x :: y :: ys else y :: insertByPos x ys

/-- Sorting of (position, class, selector) cells by position ascending. -/
def sortByPos : List (Nat × Nat × Nat) → List (Nat × Nat × Nat)
  | [] => []
  | x :: xs => insertByPos x (sortByPos xs)

/-- Modelled from the spec: the source leaves `PasswordTable::build` as
`todo!()` (src/vault/src/generate.rs line 88); sections 4.4 and 9 of the
spec fix the contract. Flatten the rows, order the cells by their original
chunk position ascending, keep the first `target_len` cells, and map each
retained cell `(i, sel)` of class row `j` to `sets[j][sel % sets[j].len()]`. -/
def PasswordTable.build (t : PasswordTable) : List Nat :=
  let cells := t.rows.enum.flatMap fun p => p.2.map fun c => (c.1, p.1, c.2)
  ((sortByPos cells).take t.target_len).map fun c =>
    let set := t.sets.getD c.2.1 []
    set.getD (c.2.2 % set.length) 0

/-- Model of `generate::password` (src/vault/src/generate.rs lines 106 to
122): derive the digest, build the table, balance it, assemble the string.
The `_env` parameter carries the ambient state; the body never consults it,
matching the source, which uses no randomness, clock or environment here. -/
def password (h : HashFn) (_env : Env) (key pepper : List Nat) (seed : Seed) :
    Option (List Nat) :=
  let digest := deriveDigest h key pepper seed
  (PasswordTable.new seed.length seed.characters.get digest).bind fun t =>
    t.balance.map PasswordTable.build

end generate

/-- Model of `Vault` (src/vault/src/lib.rs); the transient on-disk path is
not part of the in-memory state the claims are about. -/
structure Vault where
  identifier : List Nat
  pepper : List Nat
  seeds : List Seed
  auth_token : List Nat

/-- Model of `Vault::remove`: delegates to `Vec::remove`, which panics
(`none`) when the index is out of bounds. -/
def Vault.remove (v : Vault) (seed_index : Nat) : Option Vault :=
  if seed_index < v.seeds.length then
    some { v with seeds := v.seeds.eraseIdx seed_index }
  else none

/-- Model of `Vault::verify_key`: recompute the auth token from the supplied
key and the stored pepper and compare with the stored token. -/
def Vault.verify_key (h : HashFn) (v : Vault) (key : List Nat) : Bool :=
  generate.auth_token h key v.pepper == v.auth_token

/-- Model of `Vault::password`: delegates to `generate::password` with the
vault pepper. -/
def Vault.password (h : HashFn) (env : Env) (v : Vault) (seed : Seed)
    (key : List Nat) : Option (List Nat) :=
  generate.password h env key v.pepper seed

/-- The per-character filter and normalisation step of `Vault::path_of`,
over the ASCII range that `deunicode` emits: keep `.`, `_`, `-`; lowercase
alphanumerics; map space to underscore; drop everything else. -/
def normChar (c : Nat) : Option Nat :=
  if c = 46 ∨ c = 95 ∨ c = 45 then some c
  else if (48 ≤ c ∧ c ≤ 57) ∨ (65 ≤ c ∧ c ≤ 90) ∨ (97 ≤ c ∧ c ≤ 122) then
    some (if 65 ≤ c ∧ c ≤ 90 then c + 32 else c)
  else if c = 32 then some 95
  else none

/-- Model of `Vault::path_of`. The `deunicode` parameter stands for the
external `deunicode::AsciiChars::ascii_chars` transliteration (per character,
an ASCII replacement string, or `none` when there is no known replacement);
the path join of `[folder, file_name]` is byte concatenation with a slash. -/
def Vault.path_of (deunicode : Nat → Option (List Nat))
    (folder identifier : List Nat) : List Nat :=
  let ext : List Nat := [46, 118, 97, 117, 108, 116]
  let file_name :=
    ((identifier.flatMap fun c => (deunicode c).getD []).filterMap normChar).take
        (255 - ext.length)
      ++ ext
  folder ++ [47] ++ file_name

/-! ### General list lemmas used by the development -/

theorem getD_set_self {α : Type*} :
    ∀ (l : List α) (j : Nat) (v d : α), j < l.length → (l.set j v).getD j d = v
  | [], _, _, _, h => by simp at h
  | _ :: _, 0, _, _, _ => rfl
  | _ :: l, j + 1, v, d, h => getD_set_self l j v d (by simpa using h)

theorem getD_set_ne {α : Type*} :
    ∀ (l : List α) (j i : Nat) (v d : α), i ≠ j → (l.set j v).getD i d = l.getD i d
  | [], _, _, _, _, _ => rfl
  | _ :: _, 0, 0, _, _, h => absurd rfl h
  | _ :: _, 0, _ + 1, _, _, _ => rfl
  | _ :: _, _ + 1, 0, _, _, _ => rfl
  | _ :: l, j + 1, i + 1, v, d, h => getD_set_ne l j i v d fun e => h (by rw [e])

theorem getD_mem_of_lt {α : Type*} :
    ∀ (l : List α) (n : Nat) (d : α), n < l.length → l.getD n d ∈ l
  | [], _, _, h => by simp at h
  | a :: _, 0, _, _ => List.mem_cons_self a _
  | _ :: l, n + 1, d, h =>
    List.mem_cons_of_mem _ (getD_mem_of_lt l n d (by simpa using h))

theorem getD_oob {α : Type*} :
    ∀ (l : List α) (n : Nat) (d : α), l.length ≤ n → l.getD n d = d
  | [], _, _, _ => rfl
  | _ :: _, 0, _, h => by simp at h
  | _ :: l, n + 1, d, h => getD_oob l n d (by simpa using h)

theorem sum_map_set {α M : Type*} [AddCommMonoid M] (f : α → M) :
    ∀ (l : List α) (j : Nat) (v d : α), j < l.length →
      ((l.set j v).map f).sum + f (l.getD j d) = (l.map f).sum + f v
  | [], _, _, _, h => by simp at h
  | a :: l, 0, v, d, _ => by
    simp only [List.set_cons_zero, List.map_cons, List.sum_cons, List.getD_cons_zero]
    abel
  | a :: l, j + 1, v, d, h => by
    have ih := sum_map_set f l j v d (by simpa using h)
    simp only [List.set_cons_succ, List.map_cons, List.sum_cons, List.getD_cons_succ]
    rw [add_assoc, ih, ← add_assoc]

theorem dropLast_append_getLast? {α : Type*} :
    ∀ (l : List α) (c : α), l.getLast? = some c → l.dropLast ++ [c] = l
  | [], c, h => by simp at h
  | [a], c, h => by
    simp only [List.getLast?_singleton, Option.some.injEq] at h
    simp [h]
  | a :: b :: l, c, h => by
    have ih := dropLast_append_getLast? (b :: l) c (by rwa [List.getLast?_cons_cons] at h)
    show a :: ((b :: l).dropLast ++ [c]) = a :: (b :: l)
    rw [ih]

/-! ### Basic lemmas about the embedding -/

namespace generate

/-- The number of complete 2-byte chunks is half the digest length, rounded
down (a trailing odd byte is discarded). -/
theorem chunks2_length : ∀ l : List Nat, (chunks2 l).length = l.length / 2
  | [] => rfl
  | [_] => by simp [chunks2]
  | _ :: _ :: rest => by
    show (chunks2 rest).length + 1 = (rest.length + 1 + 1) / 2
    rw [chunks2_length rest]
    omega

/-- The chunk at index `i` is the pair of digest bytes at `2i` and `2i+1`. -/
theorem chunks2_getD : ∀ (l : List Nat) (i : Nat), 2 * i + 1 < l.length →
    (chunks2 l).getD i (0, 0) = (l.getD (2 * i) 0, l.getD (2 * i + 1) 0)
  | [], _, h => by simp at h
  | [_], i, h => by simp at h
  | _ :: _ :: _, 0, _ => rfl
  | a :: b :: rest, i + 1, h => by
    have ih := chunks2_getD rest i (by simp at h ⊢; omega)
    show (chunks2 rest).getD i (0, 0) = _
    rw [ih]
    have h2 : 2 * (i + 1) = 2 * i + 1 + 1 := by omega
    rw [h2]
    simp [List.getD_cons_succ]

/-- Total number of cells across the rows of a table. -/
def totalLen (rows : List (List (Nat × Nat))) : Nat :=
  (rows.map List.length).sum

/-- A row as the multiset of its cells. -/
def listMS (r : List (Nat × Nat)) : Multiset (Nat × Nat) :=
  (r : Multiset (Nat × Nat))

/-- The multiset of cells across the rows of a table. -/
def cellsM (rows : List (List (Nat × Nat))) : Multiset (Nat × Nat) :=
  (rows.map listMS).sum

theorem listMS_append (l1 l2 : List (Nat × Nat)) :
    listMS (l1 ++ l2) = listMS l1 + listMS l2 :=
  rfl

theorem cellsM_def (rows : List (List (Nat × Nat))) :
    cellsM rows = (rows.map listMS).sum :=
  rfl

/-- Cancellation of a shared summand appearing on both sides. -/
theorem cancel_mid {M : Type*} [AddCancelCommMonoid M] {s t x y : M}
    (h : s + (x + y) = t + x) : s + y = t := by
  refine add_right_cancel (b := x) ?_
  calc s + y + x = s + (x + y) := by abel
  _ = t + x := h

theorem totalLen_le (m : Nat) :
    ∀ rows, (∀ i, i < rows.length → (rows.getD i []).length ≤ m) →
      totalLen rows ≤ rows.length * m
  | [], _ => by simp [totalLen]
  | r :: rows, h => by
    have ih := totalLen_le m rows fun i hi => by
      simpa using h (i + 1) (by simpa using hi)
    have h0 := h 0 (by simp)
    simp only [List.getD_cons_zero] at h0
    simp only [totalLen, List.map_cons, List.sum_cons, List.length_cons] at ih ⊢
    rw [Nat.succ_mul]
    omega

theorem totalLen_lt (m : Nat) :
    ∀ rows (j : Nat), j < rows.length →
      (∀ i, i < rows.length → (rows.getD i []).length ≤ m) →
      (rows.getD j []).length < m →
      totalLen rows < rows.length * m
  | [], j, hj, _, _ => by simp at hj
  | r :: rows, 0, _, hall, hlt => by
    have hrest := totalLen_le m rows fun i hi => by
      simpa using hall (i + 1) (by simpa using hi)
    simp only [List.getD_cons_zero] at hlt
    simp only [totalLen, List.map_cons, List.sum_cons, List.length_cons] at hrest ⊢
    rw [Nat.succ_mul]
    omega
  | r :: rows, j + 1, hj, hall, hlt => by
    have hrest := totalLen_lt m rows j (by simpa using hj)
      (fun i hi => by simpa using hall (i + 1) (by simpa using hi))
      (by simpa using hlt)
    have h0 := hall 0 (by simp)
    simp only [List.getD_cons_zero] at h0
    simp only [totalLen, List.map_cons, List.sum_cons, List.length_cons] at hrest ⊢
    rw [Nat.succ_mul]
    omega

/-- When the index is below the total character count, the walk lands on a
valid set index. -/
theorem setIdxWalk_lt : ∀ (sets : List (List Nat)) (i : Nat),
    i < charCount sets → setIdxWalk sets i < sets.length
  | [], i, h => by simp [charCount] at h
  | s :: rest, i, h => by
    simp only [setIdxWalk]
    split
    · next hle =>
      have hr : i - s.length < charCount rest := by
        simp only [charCount, List.map_cons, List.sum_cons] at h
        simp only [charCount]
        omega
      simpa using Nat.succ_lt_succ (setIdxWalk_lt rest _ hr)
    · simp

theorem placeChunks_length (sets : List (List Nat)) (cc : Nat) :
    ∀ (chks : List (Nat × Nat)) (n : Nat) (rows),
      (placeChunks sets cc chks n rows).length = rows.length
  | [], _, _ => rfl
  | (a, b) :: rest, n, rows => by
    rw [placeChunks, placeChunks_length sets cc rest]
    simp

theorem totalLen_placeChunks (sets : List (List Nat)) (hcc : charCount sets ≠ 0) :
    ∀ (chks : List (Nat × Nat)) (n : Nat) (rows), rows.length = sets.length →
      totalLen (placeChunks sets (charCount sets) chks n rows)
        = totalLen rows + chks.length
  | [], _, _, _ => by simp [placeChunks]
  | (a, b) :: rest, n, rows, hrl => by
    have hw : setIdxWalk sets (a % charCount sets) < rows.length := by
      rw [hrl]
      exact setIdxWalk_lt sets _ (Nat.mod_lt _ (Nat.pos_of_ne_zero hcc))
    have hsum := sum_map_set List.length rows
      (setIdxWalk sets (a % charCount sets))
      ((rows.getD (setIdxWalk sets (a % charCount sets)) []) ++ [(n, b)]) [] hw
    rw [placeChunks, totalLen_placeChunks sets hcc rest (n + 1) _
      (by rw [List.length_set, hrl])]
    simp only [totalLen, List.length_append, List.length_cons, List.length_nil]
      at hsum ⊢
    omega

/-- Placing further chunks never removes a cell from a row. -/
theorem mem_placeChunks_of_mem (sets : List (List Nat)) (cc : Nat) :
    ∀ (chks : List (Nat × Nat)) (n : Nat) (rows) (j : Nat) (x : Nat × Nat),
      x ∈ rows.getD j [] → x ∈ (placeChunks sets cc chks n rows).getD j []
  | [], _, _, _, _, hx => hx
  | (a, b) :: rest, n, rows, j, x, hx => by
    rw [placeChunks]
    apply mem_placeChunks_of_mem sets cc rest
    by_cases hj : j = setIdxWalk sets (a % cc)
    · rw [hj] at hx ⊢
      by_cases hlt : setIdxWalk sets (a % cc) < rows.length
      · rw [getD_set_self _ _ _ _ hlt]
        exact List.mem_append_left _ hx
      · rw [List.set_eq_of_length_le (Nat.le_of_not_lt hlt)]
        exact hx
    · rw [getD_set_ne _ _ _ _ _ hj]
      exact hx

/-- The chunk with index `i` ends up, tagged with `i`, in the row selected
by the walk. -/
theorem placeChunks_mem (sets : List (List Nat)) (cc : Nat) :
    ∀ (chks : List (Nat × Nat)) (k n : Nat) (rows), k < chks.length →
      setIdxWalk sets ((chks.getD k (0, 0)).1 % cc) < rows.length →
      (n + k, (chks.getD k (0, 0)).2) ∈
        (placeChunks sets cc chks n rows).getD
          (setIdxWalk sets ((chks.getD k (0, 0)).1 % cc)) []
  | [], k, _, _, hk, _ => by simp at hk
  | (a, b) :: rest, 0, n, rows, _, hw => by
    rw [placeChunks]
    apply mem_placeChunks_of_mem
    simp only [List.getD_cons_zero] at hw ⊢
    rw [getD_set_self _ _ _ _ hw]
    simp
  | (a, b) :: rest, k + 1, n, rows, hk, hw => by
    rw [placeChunks]
    have hres := placeChunks_mem sets cc rest k (n + 1)
      (rows.set (setIdxWalk sets (a % cc))
        ((rows.getD (setIdxWalk sets (a % cc)) []) ++ [(n, b)]))
      (by simpa using hk)
      (by simpa using hw)
    have harith : n + 1 + k = n + (k + 1) := by omega
    rw [harith] at hres
    simpa using hres

theorem lastMaxIdx_lt : ∀ (rows : List (List (Nat × Nat))),
    rows ≠ [] → lastMaxIdx rows < rows.length
  | [], h => absurd rfl h
  | [_], _ => by simp [lastMaxIdx]
  | r :: r2 :: rs, _ => by
    have ih := lastMaxIdx_lt (r2 :: rs) (by simp)
    rw [lastMaxIdx]
    split
    · simp
    · simpa using Nat.succ_lt_succ ih

/-- Every row length is bounded by the length of the row at `lastMaxIdx`. -/
theorem getD_length_le_lastMaxIdx : ∀ (rows : List (List (Nat × Nat))) (i : Nat),
    i < rows.length →
    (rows.getD i []).length ≤ (rows.getD (lastMaxIdx rows) []).length
  | [], i, h => by simp at h
  | [r], 0, _ => le_refl _
  | [r], i + 1, h => by simp at h
  | r :: r2 :: rs, i, h => by
    have ih := fun j hj => getD_length_le_lastMaxIdx (r2 :: rs) j hj
    rw [lastMaxIdx]
    split
    · next hlt =>
      match i with
      | 0 => exact le_refl _
      | i + 1 =>
        rw [List.getD_cons_succ, List.getD_cons_zero]
        exact le_of_lt (lt_of_le_of_lt (ih i (by simpa using h)) hlt)
    · next hge =>
      rw [Nat.not_lt] at hge
      match i with
      | 0 => simpa using hge
      | i + 1 =>
        rw [List.getD_cons_succ, List.getD_cons_succ]
        exact ih i (by simpa using h)

/-- Full description of one successful balance step: the step conserves the
cell multiset and total count, the popped row is the last maximal one, and
the row lengths change exactly by the one moved cell. -/
theorem balanceStep_spec (i : Nat) (rows rows2 : List (List (Nat × Nat)))
    (h : balanceStep i rows = some rows2) :
    rows2.length = rows.length
    ∧ cellsM rows2 = cellsM rows
    ∧ totalLen rows2 = totalLen rows
    ∧ i < rows.length
    ∧ lastMaxIdx rows < rows.length
    ∧ 1 ≤ (rows.getD (lastMaxIdx rows) []).length
    ∧ (∀ m, m ≠ i → m ≠ lastMaxIdx rows → rows2.getD m [] = rows.getD m [])
    ∧ (i ≠ lastMaxIdx rows →
        (rows2.getD i []).length = (rows.getD i []).length + 1
        ∧ (rows2.getD (lastMaxIdx rows) []).length
            = (rows.getD (lastMaxIdx rows) []).length - 1)
    ∧ (i = lastMaxIdx rows →
        (rows2.getD i []).length = (rows.getD i []).length) := by
  rw [balanceStep] at h
  cases hlast : (rows.getD (lastMaxIdx rows) []).getLast? with
  | none => rw [hlast] at h; cases h
  | some cell =>
    rw [hlast] at h
    dsimp only at h
    by_cases hi : i < rows.length
    · rw [if_pos hi] at h
      have hrne : rows ≠ [] := by
        intro he
        rw [he] at hlast
        simp at hlast
      have hd : lastMaxIdx rows < rows.length := lastMaxIdx_lt rows hrne
      have hrdne : rows.getD (lastMaxIdx rows) [] ≠ [] := by
        intro he
        rw [he] at hlast
        simp at hlast
      have hrd1 : 1 ≤ (rows.getD (lastMaxIdx rows) []).length :=
        List.length_pos.2 hrdne
      have hsplit : (rows.getD (lastMaxIdx rows) []).dropLast ++ [cell]
          = rows.getD (lastMaxIdx rows) [] :=
        dropLast_append_getLast? _ _ hlast
      have hr2 : rows2
          = (rows.set (lastMaxIdx rows)
              ((rows.getD (lastMaxIdx rows) []).dropLast)).set i
            (((rows.set (lastMaxIdx rows)
              ((rows.getD (lastMaxIdx rows) []).dropLast)).getD i []) ++ [cell]) :=
        (Option.some.inj h).symm
      have hlen1 : (rows.set (lastMaxIdx rows)
          ((rows.getD (lastMaxIdx rows) []).dropLast)).length = rows.length :=
        List.length_set ..
      have hil : i < (rows.set (lastMaxIdx rows)
          ((rows.getD (lastMaxIdx rows) []).dropLast)).length := by rwa [hlen1]
      have hlen2 : rows2.length = rows.length := by
        rw [hr2, List.length_set, hlen1]
      have hm1 := sum_map_set listMS rows
        (lastMaxIdx rows) ((rows.getD (lastMaxIdx rows) []).dropLast) [] hd
      have hm2 := sum_map_set listMS
        (rows.set (lastMaxIdx rows) ((rows.getD (lastMaxIdx rows) []).dropLast)) i
        (((rows.set (lastMaxIdx rows)
            ((rows.getD (lastMaxIdx rows) []).dropLast)).getD i []) ++ [cell]) [] hil
      have hR : listMS (rows.getD (lastMaxIdx rows) [])
          = listMS ((rows.getD (lastMaxIdx rows) []).dropLast) + listMS [cell] := by
        rw [← listMS_append, hsplit]
      have hcells : cellsM rows2 = cellsM rows := by
        rw [← cellsM_def, ← cellsM_def, hR] at hm1
        rw [← cellsM_def, ← cellsM_def, ← hr2, listMS_append] at hm2
        exact ((cancel_mid hm2.symm).symm).trans (cancel_mid hm1)
      have ht1 := sum_map_set List.length rows (lastMaxIdx rows)
        ((rows.getD (lastMaxIdx rows) []).dropLast) [] hd
      have ht2 := sum_map_set List.length
        (rows.set (lastMaxIdx rows) ((rows.getD (lastMaxIdx rows) []).dropLast)) i
        (((rows.set (lastMaxIdx rows)
            ((rows.getD (lastMaxIdx rows) []).dropLast)).getD i []) ++ [cell]) [] hil
      have htot : totalLen rows2 = totalLen rows := by
        rw [← hr2] at ht2
        simp only [List.length_append, List.length_cons, List.length_nil,
          List.length_dropLast] at ht1 ht2
        simp only [totalLen]
        omega
      have hset1d : (rows.set (lastMaxIdx rows)
            ((rows.getD (lastMaxIdx rows) []).dropLast)).getD (lastMaxIdx rows) []
          = (rows.getD (lastMaxIdx rows) []).dropLast :=
        getD_set_self _ _ _ _ hd
      refine ⟨hlen2, hcells, htot, hi, hd, hrd1, ?_, ?_, ?_⟩
      · intro m hmi hmd
        rw [hr2, getD_set_ne _ _ _ _ _ hmi, getD_set_ne _ _ _ _ _ hmd]
      · intro hne
        constructor
        · rw [hr2, getD_set_self _ _ _ _ hil, List.length_append,
            getD_set_ne _ _ _ _ _ hne]
          simp
        · rw [hr2, getD_set_ne _ _ _ _ _ (fun e => hne e.symm), hset1d,
            List.length_dropLast]
      · intro heq
        rw [hr2, getD_set_self _ _ _ _ hil, List.length_append, heq, hset1d,
          List.length_dropLast, List.length_cons, List.length_nil]
        omega
    · rw [if_neg hi] at h
      cases h

/-- A successful run of the compensation loop preserves the number of rows,
the cell multiset and the total cell count. -/
theorem balanceLoop_some : ∀ (comps : List Nat) (rows rows' : List (List (Nat × Nat))),
    balanceLoop comps rows = some rows' →
    rows'.length = rows.length ∧ cellsM rows' = cellsM rows
      ∧ totalLen rows' = totalLen rows
  | [], rows, rows', h => by
    rw [balanceLoop] at h
    cases h
    exact ⟨rfl, rfl, rfl⟩
  | i :: rest, rows, rows', h => by
    rw [balanceLoop] at h
    cases hstep : balanceStep i rows with
    | none => rw [hstep] at h; cases h
    | some rows2 =>
      rw [hstep] at h
      obtain ⟨h1, h2, h3, -⟩ := balanceStep_spec i rows rows2 hstep
      obtain ⟨g1, g2, g3⟩ := balanceLoop_some rest rows2 rows' h
      exact ⟨g1.trans h1, g2.trans h2, g3.trans h3⟩

theorem insertByPos_perm (x : Nat × Nat × Nat) :
    ∀ l : List (Nat × Nat × Nat), (insertByPos x l).Perm (x :: l)
  | [] => List.Perm.refl _
  | y :: ys => by
    rw [insertByPos]
    split
    · exact List.Perm.refl _
    · exact ((insertByPos_perm x ys).cons y).trans (List.Perm.swap x y ys)

theorem sortByPos_perm : ∀ l : List (Nat × Nat × Nat), (sortByPos l).Perm l
  | [] => List.Perm.refl _
  | x :: xs => (insertByPos_perm x (sortByPos xs)).trans ((sortByPos_perm xs).cons x)

/-- The flattened, class-tagged cell list of a table has one entry per cell. -/
theorem length_cells_enumFrom :
    ∀ (rows : List (List (Nat × Nat))) (n : Nat),
      ((List.enumFrom n rows).flatMap fun p => p.2.map fun c => (c.1, p.1, c.2)).length
        = totalLen rows
  | [], _ => rfl
  | r :: rows, n => by
    rw [List.enumFrom_cons]
    simp only [List.flatMap_cons, List.length_append, List.length_map]
    rw [length_cells_enumFrom rows (n + 1)]
    simp [totalLen]

/-- The assembled string has one character per retained cell: its length is
the target length capped by the number of cells. -/
theorem build_length (t : PasswordTable) :
    t.build.length = min t.target_len (totalLen t.rows) := by
  simp only [PasswordTable.build]
  rw [List.length_map, List.length_take, (sortByPos_perm _).length_eq]
  rw [show t.rows.enum = List.enumFrom 0 t.rows from rfl, length_cells_enumFrom]

/-- The compensation list contains each row index exactly once per cell the
row misses with respect to `mf` (stated over `enumFrom` for the induction). -/
theorem count_comps_enumFrom (mf : Nat) :
    ∀ (rows : List (List (Nat × Nat))) (n i : Nat),
      (((List.enumFrom n rows).filterMap fun p =>
          if p.2.length < mf then some (p.1, mf - p.2.length) else none).flatMap
        fun p => List.replicate p.2 p.1).count i
      = if n ≤ i ∧ i < n + rows.length
          then mf - (rows.getD (i - n) []).length else 0
  | [], n, i => by
    simp only [List.enumFrom_nil, List.filterMap_nil, List.flatMap_nil,
      List.count_nil, List.length_nil]
    rw [if_neg (by omega)]
  | r :: rows, n, i => by
    have ih := count_comps_enumFrom mf rows (n + 1) i
    rw [List.enumFrom_cons]
    simp only [List.filterMap_cons, List.length_cons]
    by_cases hr : r.length < mf
    · simp only [hr, if_true, List.flatMap_cons, List.count_append,
        List.count_replicate, ih]
      by_cases hni : n = i
      · subst hni
        rw [if_pos (show (n == n) = true by simp), if_neg (by omega),
          if_pos (by omega)]
        simp
      · rw [if_neg (show ¬((n == i) = true) by simp [hni])]
        by_cases hin : n + 1 ≤ i ∧ i < n + 1 + rows.length
        · rw [if_pos hin, if_pos (by omega)]
          have h2 : i - n = (i - (n + 1)) + 1 := by omega
          rw [h2, List.getD_cons_succ]
          omega
        · rw [if_neg hin, if_neg (by omega)]
    · simp only [hr, if_false, ih]
      by_cases hni : n = i
      · subst hni
        rw [if_neg (by omega), if_pos (by omega)]
        simp
        omega
      · by_cases hin : n + 1 ≤ i ∧ i < n + 1 + rows.length
        · rw [if_pos hin, if_pos (by omega)]
          have h2 : i - n = (i - (n + 1)) + 1 := by omega
          rw [h2, List.getD_cons_succ]
        · rw [if_neg hin, if_neg (by omega)]

/-- For a valid row index, the compensation count is exactly the deficit. -/
theorem count_compensations (mf : Nat) (rows : List (List (Nat × Nat)))
    (i : Nat) (hi : i < rows.length) :
    (compensations mf rows).count i = mf - (rows.getD i []).length := by
  rw [compensations, show rows.enum = List.enumFrom 0 rows from rfl,
    count_comps_enumFrom, if_pos ⟨Nat.zero_le i, by omega⟩]
  simp

/-- Every queued compensation index is a valid row index. -/
theorem mem_compensations (mf : Nat) (rows : List (List (Nat × Nat)))
    (j : Nat) (hj : j ∈ compensations mf rows) : j < rows.length := by
  by_contra hge
  have hc : (compensations mf rows).count j = 0 := by
    rw [compensations, show rows.enum = List.enumFrom 0 rows from rfl,
      count_comps_enumFrom, if_neg (by omega)]
  have hpos : 0 < (compensations mf rows).count j := List.count_pos_iff.2 hj
  omega

/-- The main balancing invariant: if every row is either already at
`min_freq` or queued for exactly its deficit, and the total cell count can
accommodate `min_freq` cells per row, then a successful compensation loop
leaves every row with at least `min_freq` cells. -/
theorem balanceLoop_min_freq (mf : Nat) :
    ∀ (comps : List Nat) (rows rows' : List (List (Nat × Nat))),
      balanceLoop comps rows = some rows' →
      (∀ j ∈ comps, j < rows.length) →
      rows.length * mf ≤ totalLen rows →
      (∀ i, i < rows.length →
        (comps.count i = 0 ∧ mf ≤ (rows.getD i []).length) ∨
        (0 < comps.count i ∧ (rows.getD i []).length + comps.count i = mf)) →
      ∀ i, i < rows'.length → mf ≤ (rows'.getD i []).length
  | [], rows, rows', h, _, _, hinv => by
    rw [balanceLoop] at h
    cases h
    intro i hi
    rcases hinv i hi with ⟨_, hle⟩ | ⟨hpos, _⟩
    · exact hle
    · simp at hpos
  | j :: rest, rows, rows', h, hmem, hT, hinv => by
    rw [balanceLoop] at h
    cases hstep : balanceStep j rows with
    | none => rw [hstep] at h; cases h
    | some rows2 =>
      rw [hstep] at h
      obtain ⟨hlen2, -, htot2, hjlt, hdlt, hd1, hother, hne_case, -⟩ :=
        balanceStep_spec j rows rows2 hstep
      have hcsj : (j :: rest).count j = rest.count j + 1 := List.count_cons_self ..
      have hjdef : (rows.getD j []).length + (j :: rest).count j = mf := by
        rcases hinv j hjlt with ⟨hc0, -⟩ | ⟨-, hsum⟩
        · omega
        · exact hsum
      have hjlen : (rows.getD j []).length < mf := by omega
      have hmax : ∀ i, i < rows.length →
          (rows.getD i []).length ≤ (rows.getD (lastMaxIdx rows) []).length :=
        fun i hi => getD_length_le_lastMaxIdx rows i hi
      have hdgt : mf < (rows.getD (lastMaxIdx rows) []).length := by
        by_contra hle
        rw [Nat.not_lt] at hle
        have hallle : ∀ i, i < rows.length → (rows.getD i []).length ≤ mf :=
          fun i hi => le_trans (hmax i hi) hle
        have hlt := totalLen_lt mf rows j hjlt hallle hjlen
        omega
      have hdj : j ≠ lastMaxIdx rows := by
        intro he
        rw [he] at hjlen
        omega
      have hcd : (j :: rest).count (lastMaxIdx rows) = 0 := by
        rcases hinv (lastMaxIdx rows) hdlt with ⟨hc0, -⟩ | ⟨-, hsum⟩
        · exact hc0
        · omega
      obtain ⟨hjlen2, hdlen2⟩ := hne_case hdj
      refine balanceLoop_min_freq mf rest rows2 rows' h ?_ ?_ ?_
      · intro x hx
        rw [hlen2]
        exact hmem x (List.mem_cons_of_mem _ hx)
      · rw [hlen2, htot2]
        exact hT
      · intro i hi2
        rw [hlen2] at hi2
        by_cases hij : i = j
        · subst hij
          by_cases hz : rest.count i = 0
          · left
            exact ⟨hz, by rw [hjlen2]; omega⟩
          · right
            exact ⟨by omega, by rw [hjlen2]; omega⟩
        · have hcnt : (j :: rest).count i = rest.count i :=
            List.count_cons_of_ne hij _
          by_cases hid : i = lastMaxIdx rows
          · subst hid
            left
            exact ⟨by omega, by rw [hdlen2]; omega⟩
          · have hgd : rows2.getD i [] = rows.getD i [] := hother i hij hid
            rcases hinv i hi2 with ⟨hc0, hle⟩ | ⟨hpos, hsum⟩
            · left
              exact ⟨by omega, by rw [hgd]; exact hle⟩
            · right
              exact ⟨by omega, by rw [hgd]; omega⟩

/-- One cell per class-`j` cell of the table: counting the flattened tagged
cells with tag `j` recovers the length of row `j` (stated over `enumFrom`). -/
theorem countP_cells_enumFrom (j : Nat) :
    ∀ (rows : List (List (Nat × Nat))) (n : Nat),
      (((List.enumFrom n rows).flatMap fun p => p.2.map fun c => (c.1, p.1, c.2)).countP
        fun x => x.2.1 == j)
      = if n ≤ j ∧ j < n + rows.length then (rows.getD (j - n) []).length else 0
  | [], n => by
    simp only [List.enumFrom_nil, List.flatMap_nil, List.countP_nil, List.length_nil]
    rw [if_neg (by omega)]
  | r :: rows, n => by
    have ih := countP_cells_enumFrom j rows (n + 1)
    rw [List.enumFrom_cons]
    simp only [List.flatMap_cons, List.countP_append, ih, List.length_cons]
    have hhead : ((r.map fun c => (c.1, n, c.2)).countP fun x => x.2.1 == j)
        = if n = j then r.length else 0 := by
      rw [List.countP_map]
      by_cases hnj : n = j
      · subst hnj
        rw [if_pos rfl]
        exact List.countP_eq_length.2 fun a _ => by simp
      · rw [if_neg hnj]
        exact List.countP_eq_zero.2 fun a _ => by simp [hnj]
    rw [hhead]
    by_cases hnj : n = j
    · subst hnj
      rw [if_pos rfl, if_neg (by omega), if_pos (by omega)]
      simp
    · rw [if_neg hnj]
      by_cases hin : n + 1 ≤ j ∧ j < n + 1 + rows.length
      · rw [if_pos hin, if_pos (by omega)]
        have h2 : j - n = (j - (n + 1)) + 1 := by omega
        rw [h2, List.getD_cons_succ]
        omega
      · rw [if_neg hin, if_neg (by omega)]

end generate

theorem mem_enumFrom_snd {α : Type*} :
    ∀ (l : List α) (n : Nat) (p : Nat × α), p ∈ List.enumFrom n l → p.2 ∈ l
  | [], _, _, hp => by simp at hp
  | a :: l, n, p, hp => by
    rw [List.enumFrom_cons] at hp
    rcases List.mem_cons.1 hp with h | h
    · rw [h]
      exact List.mem_cons_self _ _
    · exact List.mem_cons_of_mem _ (mem_enumFrom_snd l (n + 1) p h)

/-- Every selected class is one of the five canonical classes. -/
theorem get_subset_SETS (c : Characters) : ∀ s ∈ c.get, s ∈ Characters.SETS := by
  intro s hs
  simp only [Characters.get] at hs
  obtain ⟨p, hp, rfl⟩ := List.mem_map.1 hs
  exact mem_enumFrom_snd _ 0 p (List.mem_filter.1 hp).1

theorem SETS_ne_nil : ∀ s ∈ Characters.SETS, s ≠ [] := by decide

/-- Every selected class is nonempty. -/
theorem get_ne_nil (c : Characters) : ∀ s ∈ c.get, s ≠ [] :=
  fun s hs => SETS_ne_nil s (get_subset_SETS c s hs)

/-- At least one selected class means a positive total character count. -/
theorem charCount_get_pos (c : Characters) (hne : c.get ≠ []) :
    0 < generate.charCount c.get := by
  cases hg : c.get with
  | nil => exact absurd hg hne
  | cons s rest =>
    have hs : s ≠ [] := get_ne_nil c s (by rw [hg]; exact List.mem_cons_self ..)
    have hpos := List.length_pos.2 hs
    simp only [generate.charCount, List.map_cons, List.sum_cons]
    omega

/-! ### Claim theorems: the direct ones -/

/-- Claim C2: for a fixed `(key, pepper, seed)` and the (pure, deterministic)
argon2 function, `generate::password` returns the identical result under any
two ambient states: no randomness, timestamp or environment-dependent state
enters the computation. -/
theorem password_deterministic (h : HashFn) (e1 e2 : Env)
    (key pepper : List Nat) (seed : Seed) :
    generate.password h e1 key pepper seed = generate.password h e2 key pepper seed :=
  rfl

/-- Claim C3: the digest used by password derivation is the hash of the key
followed by the seed identifier, with secret `pepper`, salt the 8-byte
big-endian encoding of `seed.salt`, output length `max 4 (seed.length * 2)`
bytes, and the Argon2d variant; and `password` consumes exactly this digest. -/
theorem password_digest_parameters (h : HashFn) (e : Env)
    (key pepper : List Nat) (seed : Seed) :
    generate.password h e key pepper seed
      = (generate.PasswordTable.new seed.length seed.characters.get
          (generate.deriveDigest h key pepper seed)).bind
          (fun t => t.balance.map generate.PasswordTable.build)
    ∧ generate.deriveDigest h key pepper seed
        = h (key ++ seed.identifier) (u64BeBytes seed.salt)
            { hash_length := max 4 (seed.length * 2), secret := pepper,
              variant := .Argon2d }
    ∧ (u64BeBytes seed.salt).length = 8
    ∧ u64BeBytes seed.salt
        = [seed.salt / 2 ^ 56 % 256, seed.salt / 2 ^ 48 % 256,
           seed.salt / 2 ^ 40 % 256, seed.salt / 2 ^ 32 % 256,
           seed.salt / 2 ^ 24 % 256, seed.salt / 2 ^ 16 % 256,
           seed.salt / 2 ^ 8 % 256, seed.salt % 256] :=
  ⟨rfl, rfl, rfl, rfl⟩

/-- Claim C8: `Vault::verify_key` returns `true` exactly when hashing the
supplied key with the stored pepper reproduces the stored auth token; the
check uses only the supplied key, the stored pepper and the stored token. -/
theorem verify_key_iff (h : HashFn) (v : Vault) (key : List Nat) :
    v.verify_key h key = true
      ↔ generate.auth_token h key v.pepper = v.auth_token := by
  simp [Vault.verify_key]

/-- A concrete seed used by the C7 evidence below. -/
def seedC7 : Seed :=
  { identifier := [97], length := 8, salt := 0, characters := ⟨2⟩,
    username := none }

/-- A concrete one-seed vault used by the C7 evidence below. -/
def vaultC7 : Vault :=
  { identifier := [118], pepper := [1, 2], seeds := [seedC7], auth_token := [] }

/-- Claim C7 (evidence for the code bug): on a one-seed vault, `remove 5`
panics inside `Vec::remove` (modelled `none`); it does not return the typed
`Error::SeedIndex` result that the spec requires and that the sibling
methods `get` and `swap` return. -/
theorem remove_out_of_bounds_panics : vaultC7.remove 5 = none := rfl

/-- The byte string "vaults". -/
def strVaults : List Nat := [118, 97, 117, 108, 116, 115]

/-- The byte string "test". -/
def strTest : List Nat := [116, 101, 115, 116]

/-- The byte string "Hello world". -/
def strHelloWorld : List Nat := [72, 101, 108, 108, 111, 32, 119, 111, 114, 108, 100]

/-- Claim C9: for any transliteration that (like `deunicode`) maps ASCII
characters to themselves, `path_of "vaults" "test"` is "vaults/test.vault"
and `path_of "vaults" "Hello world"` is "vaults/hello_world.vault". -/
theorem path_of_examples (deunicode : Nat → Option (List Nat))
    (hd : ∀ c, c < 128 → deunicode c = some [c]) :
    Vault.path_of deunicode strVaults strTest
      = [118, 97, 117, 108, 116, 115, 47,
         116, 101, 115, 116, 46, 118, 97, 117, 108, 116]
    ∧ Vault.path_of deunicode strVaults strHelloWorld
      = [118, 97, 117, 108, 116, 115, 47,
         104, 101, 108, 108, 111, 95, 119, 111, 114, 108, 100,
         46, 118, 97, 117, 108, 116] := by
  constructor <;>
  · simp only [Vault.path_of, strVaults, strTest, strHelloWorld,
      List.flatMap_cons, List.flatMap_nil,
      hd 116 (by omega), hd 101 (by omega), hd 115 (by omega),
      hd 72 (by omega), hd 108 (by omega), hd 111 (by omega),
      hd 32 (by omega), hd 119 (by omega), hd 114 (by omega),
      hd 100 (by omega), Option.getD_some]
    decide

/-- The identity-on-ASCII transliteration, used as a concrete instance of the
`deunicode` parameter in witnesses. -/
def asciiId : Nat → Option (List Nat) :=
  fun c => if c < 128 then some [c] else none

/-- Witness for claim C9: the ASCII-identity transliteration satisfies the
hypothesis, and the two examples evaluate as stated. -/
theorem path_of_examples_witness :
    (∀ c, c < 128 → asciiId c = some [c])
    ∧ (Vault.path_of asciiId strVaults strTest
        = [118, 97, 117, 108, 116, 115, 47,
           116, 101, 115, 116, 46, 118, 97, 117, 108, 116]
      ∧ Vault.path_of asciiId strVaults strHelloWorld
        = [118, 97, 117, 108, 116, 115, 47,
           104, 101, 108, 108, 111, 95, 119, 111, 114, 108, 100,
           46, 118, 97, 117, 108, 116]) :=
  ⟨fun c hc => by simp [asciiId, hc],
   path_of_examples asciiId (fun c hc => by simp [asciiId, hc])⟩

/-- A hash function instance for witnesses: returns `hash_length` zero
bytes, so it satisfies the argon2 output-length contract. -/
def constHash : HashFn := fun _ _ c => List.replicate c.hash_length 0

/-- An ambient state instance for witnesses. -/
def envC0 : Env := ⟨fun _ => 0⟩

/-- A seed whose character mask selects no class, for the C10 witness. -/
def seedC10 : Seed :=
  { identifier := [], length := 5, salt := 0, characters := ⟨0⟩,
    username := none }

/-- Claim C10: when the character mask of the seed selects no class
(`Characters::get` returns the empty list), `PasswordTable::new` hits the
remainder-by-zero on the first chunk and panics (`none`), so `password`
panics instead of returning a string or a typed error; and on a table with
no sets, `balance` panics with the division by zero in `min_freq`. -/
theorem password_no_sets_panics (h : HashFn)
    (hlen : ∀ d s c, (h d s c).length = c.hash_length)
    (e : Env) (key pepper : List Nat) (seed : Seed)
    (hget : seed.characters.get = []) :
    generate.PasswordTable.new seed.length seed.characters.get
        (generate.deriveDigest h key pepper seed) = none
    ∧ generate.password h e key pepper seed = none
    ∧ ∀ t : generate.PasswordTable, t.sets = [] → t.balance = none := by
  have hdlen : (generate.deriveDigest h key pepper seed).length
      = max 4 (seed.length * 2) := by
    simpa [generate.deriveDigest, generate.hash] using
      hlen (key ++ seed.identifier) (u64BeBytes seed.salt)
        { hash_length := max 4 (seed.length * 2), secret := pepper,
          variant := .Argon2d }
  have hch : generate.chunks2 (generate.deriveDigest h key pepper seed) ≠ [] := by
    intro hc
    have hlc := congrArg List.length hc
    rw [generate.chunks2_length, hdlen] at hlc
    simp at hlc
    omega
  have hnew : generate.PasswordTable.new seed.length seed.characters.get
      (generate.deriveDigest h key pepper seed) = none := by
    rw [hget]
    simp only [generate.PasswordTable.new, generate.charCount]
    rw [if_pos]
    exact ⟨hch, by simp⟩
  refine ⟨hnew, ?_, ?_⟩
  · simp only [generate.password]
    rw [hnew]
    rfl
  · intro t hts
    simp [generate.PasswordTable.balance, hts]

/-- Witness for claim C10: the constant hash satisfies the length contract,
the concrete mask-zero seed selects no class, and `password` on it is a
panic (`none`). -/
theorem password_no_sets_panics_witness :
    ((∀ d s c, (constHash d s c).length = c.hash_length)
      ∧ seedC10.characters.get = [])
    ∧ generate.password constHash envC0 [] [] seedC10 = none :=
  ⟨⟨fun _ _ _ => by simp [constHash], by decide⟩,
   (password_no_sets_panics constHash (fun _ _ _ => by simp [constHash])
      envC0 [] [] seedC10 (by decide)).2.1⟩

/-- Claim C4: on a non-empty selection of classes, table construction never
panics, produces one row per selected class, consumes exactly the complete
2-byte chunks of the digest (a trailing odd byte is dropped), and places the
chunk with index `i` as cell `(i, char_selector)` in the row chosen by
reducing the set selector modulo the total character count and walking the
classes in order. -/
theorem table_construction (target_len : Nat) (c : Characters)
    (digest : List Nat) (hne : c.get ≠ []) :
    ∃ t, generate.PasswordTable.new target_len c.get digest = some t
      ∧ t.rows.length = c.get.length
      ∧ generate.totalLen t.rows = digest.length / 2
      ∧ ∀ i, 2 * i + 1 < digest.length →
          (i, digest.getD (2 * i + 1) 0) ∈
            t.rows.getD (generate.setIdxWalk c.get
              (digest.getD (2 * i) 0 % generate.charCount c.get)) [] := by
  have hpos : 0 < generate.charCount c.get := charCount_get_pos c hne
  have hcc : generate.charCount c.get ≠ 0 := hpos.ne'
  have hnew : generate.PasswordTable.new target_len c.get digest
      = some { target_len := target_len, sets := c.get,
               rows := generate.placeChunks c.get (generate.charCount c.get)
                 (generate.chunks2 digest) 0
                 (List.replicate c.get.length []) } := by
    simp only [generate.PasswordTable.new]
    rw [if_neg]
    intro hand
    exact hcc hand.2
  refine ⟨_, hnew, ?_, ?_, ?_⟩
  · rw [generate.placeChunks_length]
    exact List.length_replicate ..
  · rw [generate.totalLen_placeChunks c.get hcc _ 0 _ (List.length_replicate ..),
      generate.chunks2_length]
    simp [generate.totalLen, List.map_replicate, List.sum_replicate]
  · intro i hi
    have hk : i < (generate.chunks2 digest).length := by
      rw [generate.chunks2_length]
      omega
    have hgd := generate.chunks2_getD digest i hi
    have hw : generate.setIdxWalk c.get
        (((generate.chunks2 digest).getD i (0, 0)).1 % generate.charCount c.get)
        < (List.replicate c.get.length ([] : List (Nat × Nat))).length := by
      rw [List.length_replicate]
      exact generate.setIdxWalk_lt _ _ (Nat.mod_lt _ hpos)
    have hmem := generate.placeChunks_mem c.get (generate.charCount c.get)
      (generate.chunks2 digest) i 0 (List.replicate c.get.length []) hk hw
    rw [hgd] at hmem
    simpa using hmem

/-- The single-class character selection (upper case only), used below. -/
def charsU : Characters := ⟨1⟩

/-- Witness for claim C4: the upper-case-only selection is non-empty, and
the construction statement holds at target length 5 on the 3-byte digest
`[1, 2, 3]` (whose trailing byte is discarded). -/
theorem table_construction_witness :
    (charsU.get ≠ [])
    ∧ ∃ t, generate.PasswordTable.new 5 charsU.get [1, 2, 3] = some t
        ∧ t.rows.length = charsU.get.length
        ∧ generate.totalLen t.rows = ([1, 2, 3] : List Nat).length / 2
        ∧ ∀ i, 2 * i + 1 < ([1, 2, 3] : List Nat).length →
            (i, ([1, 2, 3] : List Nat).getD (2 * i + 1) 0) ∈
              t.rows.getD (generate.setIdxWalk charsU.get
                (([1, 2, 3] : List Nat).getD (2 * i) 0
                  % generate.charCount charsU.get)) [] :=
  ⟨by decide, table_construction 5 charsU [1, 2, 3] (by decide)⟩

/-- Claim C5: on any table with at least one selected class, a balancing run
that returns conserves the multiset of cells across the rows: cells are only
relocated, never created or dropped. -/
theorem balance_conserves_cells (t : generate.PasswordTable)
    (hs : t.sets ≠ []) (t' : generate.PasswordTable)
    (hb : t.balance = some t') :
    generate.cellsM t'.rows = generate.cellsM t.rows := by
  rw [generate.PasswordTable.balance] at hb
  rw [if_neg (fun h0 => hs (List.length_eq_zero.1 h0))] at hb
  obtain ⟨rows', hloop, ht'⟩ := Option.map_eq_some'.1 hb
  have hrows : t'.rows = rows' := by rw [← ht']
  rw [hrows]
  exact (generate.balanceLoop_some _ _ _ hloop).2.1

/-- Claim C1: whenever `Vault::password` returns a string (it panics only
when no character class is selected), that string has length exactly
`seed.length`, for every seed of length at least 1, every key and every
pepper. The assembly step is modelled from the spec since the source leaves
`build` as `todo!()`. -/
theorem password_length (h : HashFn)
    (hlen : ∀ d s c, (h d s c).length = c.hash_length)
    (e : Env) (v : Vault) (seed : Seed) (key : List Nat)
    (h1 : 1 ≤ seed.length) (pw : List Nat)
    (hpw : v.password h e seed key = some pw) :
    pw.length = seed.length := by
  rw [Vault.password, generate.password] at hpw
  obtain ⟨t, hnew, hmap⟩ := Option.bind_eq_some.1 hpw
  obtain ⟨t', hbal, hbuild⟩ := Option.map_eq_some'.1 hmap
  have hdlen : (generate.deriveDigest h key v.pepper seed).length
      = max 4 (seed.length * 2) := by
    simpa [generate.deriveDigest, generate.hash] using
      hlen (key ++ seed.identifier) (u64BeBytes seed.salt)
        { hash_length := max 4 (seed.length * 2), secret := v.pepper,
          variant := .Argon2d }
  rw [generate.PasswordTable.new] at hnew
  by_cases hcc : generate.charCount seed.characters.get = 0
  · have hch : generate.chunks2 (generate.deriveDigest h key v.pepper seed) ≠ [] := by
      intro hc
      have hlc := congrArg List.length hc
      rw [generate.chunks2_length, hdlen] at hlc
      simp at hlc
      omega
    rw [if_pos ⟨hch, hcc⟩] at hnew
    cases hnew
  · rw [if_neg (fun hand => hcc hand.2)] at hnew
    have ht := Option.some.inj hnew
    subst ht
    have hsne : seed.characters.get ≠ [] := by
      intro he
      rw [he] at hcc
      exact hcc rfl
    have hT : generate.totalLen
        (generate.placeChunks seed.characters.get
          (generate.charCount seed.characters.get)
          (generate.chunks2 (generate.deriveDigest h key v.pepper seed)) 0
          (List.replicate seed.characters.get.length []))
        = max 2 seed.length := by
      rw [generate.totalLen_placeChunks _ hcc _ 0 _ (List.length_replicate ..),
        generate.chunks2_length, hdlen]
      have hz : generate.totalLen (List.replicate seed.characters.get.length []) = 0 := by
        simp [generate.totalLen, List.map_replicate, List.sum_replicate]
      rw [hz]
      omega
    rw [generate.PasswordTable.balance] at hbal
    dsimp only at hbal
    rw [if_neg (fun h0 => hsne (List.length_eq_zero.1 h0))] at hbal
    obtain ⟨rows', hloop, ht'⟩ := Option.map_eq_some'.1 hbal
    have htot' := (generate.balanceLoop_some _ _ _ hloop).2.2
    rw [← hbuild, ← ht', generate.build_length]
    dsimp only
    rw [htot', hT]
    omega

/-- A seed of length 1 over the numeric class, for the C1 witness. -/
def seedC1 : Seed :=
  { identifier := [], length := 1, salt := 0, characters := ⟨4⟩,
    username := none }

/-- An empty vault (its pepper is all the password path reads), for the C1
and C6 witnesses. -/
def vaultC0 : Vault :=
  { identifier := [], pepper := [], seeds := [], auth_token := [] }

/-- Witness for claim C1: on the concrete length-1 numeric seed the password
computes to the one-byte string "1", whose length is the seed length. -/
theorem password_length_witness :
    ((∀ d s c, (constHash d s c).length = c.hash_length)
      ∧ 1 ≤ seedC1.length
      ∧ vaultC0.password constHash envC0 seedC1 [] = some [49])
    ∧ ([49] : List Nat).length = seedC1.length :=
  ⟨⟨fun _ _ _ => by simp [constHash], by decide, by decide⟩,
   password_length constHash (fun _ _ _ => by simp [constHash]) envC0 vaultC0
     seedC1 [] (by decide) [49] (by decide)⟩

/-- Unfolding of a successful `generate::password` run into its pipeline
stages: the character count is nonzero, the compensation loop succeeded on
the constructed table, and the result is the assembly of the balanced
table. -/
theorem password_unfold (h : HashFn)
    (hlen : ∀ d s c, (h d s c).length = c.hash_length)
    (e : Env) (key pepper : List Nat) (seed : Seed) (pw : List Nat)
    (hpw : generate.password h e key pepper seed = some pw) :
    generate.charCount seed.characters.get ≠ 0
    ∧ ∃ rows',
      generate.balanceLoop
        (generate.compensations
          (min 2 (seed.length / seed.characters.get.length))
          (generate.placeChunks seed.characters.get
            (generate.charCount seed.characters.get)
            (generate.chunks2 (generate.deriveDigest h key pepper seed)) 0
            (List.replicate seed.characters.get.length [])))
        (generate.placeChunks seed.characters.get
          (generate.charCount seed.characters.get)
          (generate.chunks2 (generate.deriveDigest h key pepper seed)) 0
          (List.replicate seed.characters.get.length []))
        = some rows'
      ∧ pw = generate.PasswordTable.build
          { target_len := seed.length, sets := seed.characters.get,
            rows := rows' } := by
  rw [generate.password] at hpw
  obtain ⟨t, hnew, hmap⟩ := Option.bind_eq_some.1 hpw
  obtain ⟨t', hbal, hbuild⟩ := Option.map_eq_some'.1 hmap
  have hdlen : (generate.deriveDigest h key pepper seed).length
      = max 4 (seed.length * 2) := by
    simpa [generate.deriveDigest, generate.hash] using
      hlen (key ++ seed.identifier) (u64BeBytes seed.salt)
        { hash_length := max 4 (seed.length * 2), secret := pepper,
          variant := .Argon2d }
  rw [generate.PasswordTable.new] at hnew
  by_cases hcc : generate.charCount seed.characters.get = 0
  · have hch : generate.chunks2 (generate.deriveDigest h key pepper seed) ≠ [] := by
      intro hc
      have hlc := congrArg List.length hc
      rw [generate.chunks2_length, hdlen] at hlc
      simp at hlc
      omega
    rw [if_pos ⟨hch, hcc⟩] at hnew
    cases hnew
  · rw [if_neg (fun hand => hcc hand.2)] at hnew
    have ht := Option.some.inj hnew
    subst ht
    have hsne : seed.characters.get ≠ [] := by
      intro he
      rw [he] at hcc
      exact hcc rfl
    rw [generate.PasswordTable.balance] at hbal
    dsimp only at hbal
    rw [if_neg (fun h0 => hsne (List.length_eq_zero.1 h0))] at hbal
    obtain ⟨rows', hloop, ht'⟩ := Option.map_eq_some'.1 hbal
    refine ⟨hcc, rows', hloop, ?_⟩
    rw [← hbuild, ← ht']

/-- Claim C6: for a seed whose length is at least twice the number of
selected classes, every selected class contributes at least
`min 2 (seed.length / class count)` characters to the derived password:
the count of password bytes lying in class `j` is at least that bound.
The assembly step is modelled from the spec since the source leaves `build`
as `todo!()`. -/
theorem password_min_representation (h : HashFn)
    (hlen : ∀ d s c, (h d s c).length = c.hash_length)
    (e : Env) (v : Vault) (seed : Seed) (key : List Nat)
    (hk : 2 * seed.characters.get.length ≤ seed.length)
    (pw : List Nat) (hpw : v.password h e seed key = some pw)
    (j : Nat) (hj : j < seed.characters.get.length) :
    min 2 (seed.length / seed.characters.get.length)
      ≤ pw.countP fun ch => (seed.characters.get.getD j []).contains ch := by
  rw [Vault.password] at hpw
  obtain ⟨hcc, rows', hloop, hpw'⟩ := password_unfold h hlen e key v.pepper seed pw hpw
  have hdlen : (generate.deriveDigest h key v.pepper seed).length
      = max 4 (seed.length * 2) := by
    simpa [generate.deriveDigest, generate.hash] using
      hlen (key ++ seed.identifier) (u64BeBytes seed.salt)
        { hash_length := max 4 (seed.length * 2), secret := v.pepper,
          variant := .Argon2d }
  have hkpos : 0 < seed.characters.get.length := by omega
  have hs2 : 2 ≤ seed.length := by omega
  have hlen0 : (generate.placeChunks seed.characters.get
      (generate.charCount seed.characters.get)
      (generate.chunks2 (generate.deriveDigest h key v.pepper seed)) 0
      (List.replicate seed.characters.get.length [])).length
      = seed.characters.get.length := by
    rw [generate.placeChunks_length]
    exact List.length_replicate ..
  have hT0 : generate.totalLen (generate.placeChunks seed.characters.get
      (generate.charCount seed.characters.get)
      (generate.chunks2 (generate.deriveDigest h key v.pepper seed)) 0
      (List.replicate seed.characters.get.length []))
      = seed.length := by
    rw [generate.totalLen_placeChunks _ hcc _ 0 _ (List.length_replicate ..),
      generate.chunks2_length, hdlen]
    have hz : generate.totalLen
        (List.replicate seed.characters.get.length ([] : List (Nat × Nat))) = 0 := by
      simp [generate.totalLen, List.map_replicate, List.sum_replicate]
    rw [hz]
    omega
  have hkmf : (generate.placeChunks seed.characters.get
      (generate.charCount seed.characters.get)
      (generate.chunks2 (generate.deriveDigest h key v.pepper seed)) 0
      (List.replicate seed.characters.get.length [])).length
        * min 2 (seed.length / seed.characters.get.length)
      ≤ generate.totalLen (generate.placeChunks seed.characters.get
          (generate.charCount seed.characters.get)
          (generate.chunks2 (generate.deriveDigest h key v.pepper seed)) 0
          (List.replicate seed.characters.get.length [])) := by
    rw [hlen0, hT0]
    have h1 : min 2 (seed.length / seed.characters.get.length)
        ≤ seed.length / seed.characters.get.length := min_le_right _ _
    have h2 : seed.characters.get.length * (seed.length / seed.characters.get.length)
        ≤ seed.length := by
      rw [mul_comm]
      exact Nat.div_mul_le_self ..
    exact le_trans (Nat.mul_le_mul_left _ h1) h2
  have hinit : ∀ i, i < (generate.placeChunks seed.characters.get
      (generate.charCount seed.characters.get)
      (generate.chunks2 (generate.deriveDigest h key v.pepper seed)) 0
      (List.replicate seed.characters.get.length [])).length →
      ((generate.compensations (min 2 (seed.length / seed.characters.get.length))
          (generate.placeChunks seed.characters.get
            (generate.charCount seed.characters.get)
            (generate.chunks2 (generate.deriveDigest h key v.pepper seed)) 0
            (List.replicate seed.characters.get.length []))).count i = 0
        ∧ min 2 (seed.length / seed.characters.get.length)
            ≤ ((generate.placeChunks seed.characters.get
                (generate.charCount seed.characters.get)
                (generate.chunks2 (generate.deriveDigest h key v.pepper seed)) 0
                (List.replicate seed.characters.get.length [])).getD i []).length)
      ∨ (0 < (generate.compensations
            (min 2 (seed.length / seed.characters.get.length))
            (generate.placeChunks seed.characters.get
              (generate.charCount seed.characters.get)
              (generate.chunks2 (generate.deriveDigest h key v.pepper seed)) 0
              (List.replicate seed.characters.get.length []))).count i
        ∧ ((generate.placeChunks seed.characters.get
              (generate.charCount seed.characters.get)
              (generate.chunks2 (generate.deriveDigest h key v.pepper seed)) 0
              (List.replicate seed.characters.get.length [])).getD i []).length
            + (generate.compensations
                (min 2 (seed.length / seed.characters.get.length))
                (generate.placeChunks seed.characters.get
                  (generate.charCount seed.characters.get)
                  (generate.chunks2 (generate.deriveDigest h key v.pepper seed)) 0
                  (List.replicate seed.characters.get.length []))).count i
            = min 2 (seed.length / seed.characters.get.length)) := by
    intro i hi
    have hc := generate.count_compensations
      (min 2 (seed.length / seed.characters.get.length)) _ i hi
    rcases Nat.lt_or_ge ((generate.placeChunks seed.characters.get
        (generate.charCount seed.characters.get)
        (generate.chunks2 (generate.deriveDigest h key v.pepper seed)) 0
        (List.replicate seed.characters.get.length [])).getD i []).length
        (min 2 (seed.length / seed.characters.get.length)) with hlt | hge
    · right
      exact ⟨by omega, by omega⟩
    · left
      exact ⟨by omega, by omega⟩
  have hmin := generate.balanceLoop_min_freq
    (min 2 (seed.length / seed.characters.get.length)) _ _ rows' hloop
    (fun x hx => generate.mem_compensations _ _ x hx) hkmf hinit
  obtain ⟨hlenp, -, htotp⟩ := generate.balanceLoop_some _ _ rows' hloop
  have hlenp' : rows'.length = seed.characters.get.length := by rw [hlenp, hlen0]
  have htotp' : generate.totalLen rows' = seed.length := by rw [htotp, hT0]
  -- assemble: no truncation happens, and each class-j cell yields a class-j byte
  subst hpw'
  simp only [generate.PasswordTable.build]
  have hclen : ((List.enumFrom 0 rows').flatMap
      fun p => p.2.map fun c => (c.1, p.1, c.2)).length = seed.length := by
    rw [generate.length_cells_enumFrom, htotp']
  have hslen : (generate.sortByPos ((List.enumFrom 0 rows').flatMap
      fun p => p.2.map fun c => (c.1, p.1, c.2))).length = seed.length := by
    rw [(generate.sortByPos_perm _).length_eq, hclen]
  rw [show ({ target_len := seed.length, sets := seed.characters.get,
              rows := rows' } : generate.PasswordTable).rows.enum
    = List.enumFrom 0 rows' from rfl]
  have htake : (generate.sortByPos ((List.enumFrom 0 rows').flatMap
      fun p => p.2.map fun c => (c.1, p.1, c.2))).take
        ({ target_len := seed.length, sets := seed.characters.get,
           rows := rows' } : generate.PasswordTable).target_len
      = generate.sortByPos ((List.enumFrom 0 rows').flatMap
          fun p => p.2.map fun c => (c.1, p.1, c.2)) := by
    apply List.take_of_length_le
    rw [hslen]
  rw [htake, List.countP_map]
  have hmono : (generate.sortByPos ((List.enumFrom 0 rows').flatMap
        fun p => p.2.map fun c => (c.1, p.1, c.2))).countP
        (fun x => x.2.1 == j)
      ≤ (generate.sortByPos ((List.enumFrom 0 rows').flatMap
          fun p => p.2.map fun c => (c.1, p.1, c.2))).countP
        ((fun ch => (seed.characters.get.getD j []).contains ch) ∘
          fun c => (seed.characters.get.getD c.2.1 []).getD
            (c.2.2 % (seed.characters.get.getD c.2.1 []).length) 0) := by
    apply List.countP_mono_left
    intro a _ hpa
    have haj : a.2.1 = j := by simpa using hpa
    have hsetmem : seed.characters.get.getD j [] ∈ seed.characters.get :=
      getD_mem_of_lt _ _ _ hj
    have hsetne : seed.characters.get.getD j [] ≠ [] :=
      get_ne_nil seed.characters _ hsetmem
    have hsetpos : 0 < (seed.characters.get.getD j []).length :=
      List.length_pos.2 hsetne
    simp only [Function.comp, haj]
    have hcharmem : (seed.characters.get.getD j []).getD
        (a.2.2 % (seed.characters.get.getD j []).length) 0
        ∈ seed.characters.get.getD j [] :=
      getD_mem_of_lt _ _ _ (Nat.mod_lt _ hsetpos)
    exact List.elem_iff.2 hcharmem
  have hcount : (generate.sortByPos ((List.enumFrom 0 rows').flatMap
        fun p => p.2.map fun c => (c.1, p.1, c.2))).countP (fun x => x.2.1 == j)
      = (rows'.getD j []).length := by
    rw [(generate.sortByPos_perm _).countP_eq]
    rw [generate.countP_cells_enumFrom j rows' 0,
      if_pos ⟨Nat.zero_le j, by omega⟩]
    simp
  have hrowj := hmin j (by omega)
  omega

/-- A seed of length 4 over the numeric class, for the C6 witness. -/
def seedC6 : Seed :=
  { identifier := [], length := 4, salt := 0, characters := ⟨4⟩,
    username := none }

/-- Witness for claim C6: on the concrete length-4 numeric seed, 2*1 <= 4,
the password computes to "1111", and the numeric class contributes at least
`min 2 (4 / 1) = 2` of its 4 characters. -/
theorem password_min_representation_witness :
    ((∀ d s c, (constHash d s c).length = c.hash_length)
      ∧ 2 * seedC6.characters.get.length ≤ seedC6.length
      ∧ vaultC0.password constHash envC0 seedC6 [] = some [49, 49, 49, 49]
      ∧ 0 < seedC6.characters.get.length)
    ∧ min 2 (seedC6.length / seedC6.characters.get.length)
        ≤ ([49, 49, 49, 49] : List Nat).countP
            fun ch => (seedC6.characters.get.getD 0 []).contains ch :=
  ⟨⟨fun _ _ _ => by simp [constHash], by decide, by decide, by decide⟩,
   password_min_representation constHash (fun _ _ _ => by simp [constHash])
     envC0 vaultC0 seedC6 [] (by decide) [49, 49, 49, 49] (by decide)
     0 (by decide)⟩

/-- A concrete one-class table for the C5 witness. -/
def tC5 : generate.PasswordTable :=
  { target_len := 4, sets := [[49, 50, 51, 52, 53, 54, 55, 56, 57]],
    rows := [[(0, 5)]] }

/-- Witness for claim C5: on the concrete one-class table the balance run
returns (after moving the single cell), and the cell multiset is unchanged. -/
theorem balance_conserves_cells_witness :
    (tC5.sets ≠ [] ∧ tC5.balance = some tC5)
    ∧ generate.cellsM tC5.rows = generate.cellsM tC5.rows :=
  ⟨⟨by decide, by decide⟩,
   balance_conserves_cells tC5 (by decide) tC5 (by decide)⟩

end Svalbard
